import Mathlib

/-!
Shallow embedding of the HarfBuzz set-digest filters (hb-set-digest.hh).

A bits-pattern filter is parameterized by a mask type (its byte size) and a
shift.  Codepoints are 32-bit unsigned integers; masks are `mask_bits`-wide
unsigned integers.  We model machine integers as `Nat` with explicit
`% 2 ^ w` where wraparound matters.
-/

namespace HB

/-- Width of `hb_codepoint_t` (uint32_t) in bits. -/
def codepointBits : Nat := 32

/-- Static configuration of `hb_set_digest_bits_pattern_t<mask_t, shift>`:
the byte size of `mask_t` and the shift template parameter. -/
structure Cfg where
  mask_bytes : Nat
  shift : Nat
deriving DecidableEq

namespace Cfg

/-- `mask_bits = sizeof (mask_t) * 8`. -/
def mask_bits (c : Cfg) : Nat := c.mask_bytes * 8

/-- `num_bits`, exactly as computed in the source from `mask_bytes`. -/
def num_bits (c : Cfg) : Nat :=
  0 + (if 1 ≤ c.mask_bytes then 3 else 0)
    + (if 2 ≤ c.mask_bytes then 1 else 0)
    + (if 4 ≤ c.mask_bytes then 1 else 0)
    + (if 8 ≤ c.mask_bytes then 1 else 0)
    + (if 16 ≤ c.mask_bytes then 1 else 0)
    + 0

/-- A valid configuration: `mask_t` is one of the unsigned integer types of
1, 2, 4, 8 or 16 bytes, and the static assertions of the source hold:
`shift < 32` and `shift + num_bits <= 32`. -/
def Valid (c : Cfg) : Prop :=
  (c.mask_bytes = 1 ∨ c.mask_bytes = 2 ∨ c.mask_bytes = 4 ∨
   c.mask_bytes = 8 ∨ c.mask_bytes = 16) ∧
  c.shift < 32 ∧ c.shift + c.num_bits ≤ 32

instance (c : Cfg) : Decidable c.Valid := by
  unfold Valid; infer_instance

/-- Bucket index of a codepoint: `(g >> shift) & (mask_bits - 1)`. -/
def bucket (c : Cfg) (g : Nat) : Nat :=
  (g >>> c.shift) &&& (c.mask_bits - 1)

/-- `mask_for (g) = ((mask_t) 1) << ((g >> shift) & (mask_bits - 1))`,
computed in `mask_t` arithmetic (hence the reduction mod `2 ^ mask_bits`). -/
def mask_for (c : Cfg) (g : Nat) : Nat :=
  (1 <<< c.bucket g) % 2 ^ c.mask_bits

/-- `w`-bit unsigned wraparound subtraction `(x - y) mod 2^w`. -/
def wsub (w x y : Nat) : Nat :=
  (2 ^ w + x % 2 ^ w - y % 2 ^ w) % 2 ^ w

/-- `add (g)`: `mask |= mask_for (g)`.  The state is the mask value. -/
def add (c : Cfg) (g m : Nat) : Nat := m ||| c.mask_for g

/-- `add_range (a, b)`: returns the new mask together with the returned
boolean.  The comparison `(b >> shift) - (a >> shift)` is 32-bit unsigned
wraparound subtraction; the run `mb + (mb - ma) - (mb < ma)` is computed
in `mask_t` arithmetic; `(mask_t) -1` is the all-ones mask. -/
def add_range (c : Cfg) (a b m : Nat) : Nat × Bool :=
  if c.mask_bits - 1 ≤ wsub codepointBits (b >>> c.shift) (a >>> c.shift) then
    (2 ^ c.mask_bits - 1, true)
  else
    let ma := c.mask_for a
    let mb := c.mask_for b
    (m ||| wsub c.mask_bits ((mb + wsub c.mask_bits mb ma) % 2 ^ c.mask_bits)
             (if mb < ma then 1 else 0),
     true)

/-- `add_array (array, count, stride)`: applies `add` to `count` elements
read from the buffer; `read o` is the element found at byte offset `o`, so
iteration `i` adds `read (i * stride)`. -/
def add_array (c : Cfg) (read : Nat → Nat) (count stride m : Nat) : Nat :=
  (List.range count).foldl (fun m i => c.add (read (i * stride)) m) m

/-- `add_sorted_array (array, count, stride)`: the same loop as
`add_array`, returning `true`. -/
def add_sorted_array (c : Cfg) (read : Nat → Nat) (count stride m : Nat) :
    Nat × Bool :=
  ((List.range count).foldl (fun m i => c.add (read (i * stride)) m) m, true)

/-- `may_have (g)`: `mask & mask_for (g)` converted to bool. -/
def may_have (c : Cfg) (m g : Nat) : Bool :=
  decide (m &&& c.mask_for g ≠ 0)

end Cfg

/-! ### The AVX2 vector query path

An `__m256i` value is eight 32-bit lanes.  Each intrinsic reads its operand
lanes as 32-bit values (hence the reductions mod `2 ^ 32`). -/

/-- Eight 32-bit lanes of an `__m256i` register. -/
def Lanes : Type := Fin 8 → Nat

/-- `_mm256_set1_epi32`: broadcast a value to all lanes, truncated to the
32-bit lane width. -/
def set1_epi32 (x : Nat) : Lanes := fun _ => x % 2 ^ 32

/-- `_mm256_and_si256`: lanewise bitwise and. -/
def and_si256 (u v : Lanes) : Lanes := fun i => (u i % 2 ^ 32) &&& (v i % 2 ^ 32)

/-- `_mm256_srli_epi32`: lanewise logical shift right by an immediate. -/
def srli_epi32 (v : Lanes) (s : Nat) : Lanes := fun i => (v i % 2 ^ 32) >>> s

/-- `_mm256_sllv_epi32`: lanewise variable shift left; a lane whose shift
count exceeds 31 becomes zero. -/
def sllv_epi32 (u v : Lanes) : Lanes :=
  fun i => if v i % 2 ^ 32 < 32 then ((u i % 2 ^ 32) <<< (v i % 2 ^ 32)) % 2 ^ 32 else 0

/-- `m256_is_not_zero (v) = !_mm256_testz_si256 (v, v)`: whether any lane
is nonzero. -/
def m256_is_not_zero (v : Lanes) : Bool :=
  decide (∃ i, v i % 2 ^ 32 ≠ 0)

namespace Cfg

/-- The `shifted` helper: the identity for `shift == 0`, otherwise
`_mm256_srli_epi32 (v, shift)`. -/
def shifted (c : Cfg) (v : Lanes) : Lanes :=
  if c.shift = 0 then v else srli_epi32 v c.shift

/-- Vector `mask_for`: lanewise bucket computation followed by a lanewise
variable shift of broadcast 1. -/
def mask_for_vec (c : Cfg) (g : Lanes) : Lanes :=
  sllv_epi32 (set1_epi32 1) (and_si256 (c.shifted g) (set1_epi32 (c.mask_bits - 1)))

/-- Vector `may_have (const __m256i &g)`: broadcast the scalar mask, and it
lanewise with the per-lane bucket bits, and test whether anything is left. -/
def may_have_vec (c : Cfg) (m : Nat) (g : Lanes) : Bool :=
  m256_is_not_zero (and_si256 (set1_epi32 m) (c.mask_for_vec g))

/-- The scalar `may_have` method as a call on the filter state: it returns
its boolean together with the state after the call.  The method body only
reads `mask`, so the state after the call is the state before it. -/
def may_have_call (c : Cfg) (m g : Nat) : Bool × Nat :=
  (c.may_have m g, m)

/-- The vector `may_have` method as a call on the filter state. -/
def may_have_vec_call (c : Cfg) (m : Nat) (g : Lanes) : Bool × Nat :=
  (c.may_have_vec m g, m)

end Cfg

/-! ### Digests: leaf filters and combiners -/

/-- A digest value: either a `hb_set_digest_bits_pattern_t` instance (its
configuration and current mask), or a `hb_set_digest_combiner_t` of two
child digests. -/
inductive Digest where
  | bits : Cfg → Nat → Digest
  | combiner : Digest → Digest → Digest

namespace Digest

/-- `init ()`: zero the mask; a combiner forwards to both children. -/
def init : Digest → Digest
  | .bits c _ => .bits c 0
  | .combiner h t => .combiner h.init t.init

/-- `add (g)`: a combiner forwards to both children. -/
def add (g : Nat) : Digest → Digest
  | .bits c m => .bits c (c.add g m)
  | .combiner h t => .combiner (h.add g) (t.add g)

/-- `add_range (a, b)`: a combiner forwards to both children and returns
`true`. -/
def add_range (a b : Nat) : Digest → Digest × Bool
  | .bits c m => (.bits c (c.add_range a b m).1, (c.add_range a b m).2)
  | .combiner h t => (.combiner (h.add_range a b).1 (t.add_range a b).1, true)

/-- `add_array (array, count, stride)`: a combiner forwards to both
children. -/
def add_array (read : Nat → Nat) (count stride : Nat) : Digest → Digest
  | .bits c m => .bits c (c.add_array read count stride m)
  | .combiner h t =>
      .combiner (h.add_array read count stride) (t.add_array read count stride)

/-- `add_sorted_array (array, count, stride)`: a combiner forwards to both
children and returns `true`. -/
def add_sorted_array (read : Nat → Nat) (count stride : Nat) :
    Digest → Digest × Bool
  | .bits c m => (.bits c (c.add_sorted_array read count stride m).1,
                  (c.add_sorted_array read count stride m).2)
  | .combiner h t => (.combiner (h.add_sorted_array read count stride).1
                               (t.add_sorted_array read count stride).1, true)

/-- `may_have (g)`: a combiner conjoins its children's answers. -/
def may_have : Digest → Nat → Bool
  | .bits c m, g => c.may_have m g
  | .combiner h t, g => h.may_have g && t.may_have g

/-- Vector `may_have`: a combiner conjoins its children's answers. -/
def may_have_vec : Digest → Lanes → Bool
  | .bits c m, g => c.may_have_vec m g
  | .combiner h t, g => h.may_have_vec g && t.may_have_vec g

/-- Scalar `may_have` as a call: result together with the digest after the
call. -/
def may_have_call : Digest → Nat → Bool × Digest
  | .bits c m, g => ((c.may_have_call m g).1, .bits c (c.may_have_call m g).2)
  | .combiner h t, g =>
      ((h.may_have_call g).1 && (t.may_have_call g).1,
       .combiner (h.may_have_call g).2 (t.may_have_call g).2)

/-- Vector `may_have` as a call: result together with the digest after the
call. -/
def may_have_vec_call : Digest → Lanes → Bool × Digest
  | .bits c m, g => ((c.may_have_vec_call m g).1, .bits c (c.may_have_vec_call m g).2)
  | .combiner h t, g =>
      ((h.may_have_vec_call g).1 && (t.may_have_vec_call g).1,
       .combiner (h.may_have_vec_call g).2 (t.may_have_vec_call g).2)

end Digest

/-! ### Mutation sequences -/

/-- A single mutating call on a filter. -/
inductive Op where
  | add : Nat → Op
  | add_range : Nat → Nat → Op
  | add_array : (Nat → Nat) → Nat → Nat → Op
  | add_sorted_array : (Nat → Nat) → Nat → Nat → Op

namespace Op

/-- The calling contract of an operation: arguments are 32-bit codepoints,
and a range is given with `a ≤ b`. -/
def Valid : Op → Prop
  | .add g => g < 2 ^ 32
  | .add_range a b => a ≤ b ∧ b < 2 ^ 32
  | .add_array read count stride => ∀ i, i < count → read (i * stride) < 2 ^ 32
  | .add_sorted_array read count stride => ∀ i, i < count → read (i * stride) < 2 ^ 32

/-- Membership of a codepoint in the logical set an operation adds. -/
def Contains : Op → Nat → Prop
  | .add g, x => g = x
  | .add_range a b, x => a ≤ x ∧ x ≤ b
  | .add_array read count stride, x => ∃ i, i < count ∧ read (i * stride) = x
  | .add_sorted_array read count stride, x => ∃ i, i < count ∧ read (i * stride) = x

end Op

/-- Apply one operation to a leaf filter mask. -/
def Cfg.applyOp (c : Cfg) (m : Nat) : Op → Nat
  | .add g => c.add g m
  | .add_range a b => (c.add_range a b m).1
  | .add_array read count stride => c.add_array read count stride m
  | .add_sorted_array read count stride => (c.add_sorted_array read count stride m).1

/-- Apply a sequence of operations to a leaf filter mask, first to last. -/
def Cfg.runOps (c : Cfg) (ops : List Op) (m : Nat) : Nat :=
  ops.foldl c.applyOp m

/-- Apply one operation to a digest. -/
def Digest.applyOp (d : Digest) : Op → Digest
  | .add g => d.add g
  | .add_range a b => (d.add_range a b).1
  | .add_array read count stride => d.add_array read count stride
  | .add_sorted_array read count stride => (d.add_sorted_array read count stride).1

/-- Apply a sequence of operations to a digest, first to last. -/
def Digest.runOps (ops : List Op) (d : Digest) : Digest :=
  ops.foldl Digest.applyOp d

/-- The production configurations of `hb_set_digest_t`: 32-bit masks with
shifts 4, 0 and 9. -/
def cfg4 : Cfg := ⟨4, 4⟩

def cfg0 : Cfg := ⟨4, 0⟩

def cfg9 : Cfg := ⟨4, 9⟩

/-- The production digest
`hb_set_digest_combiner_t<bits_pattern<uint32_t,4>,
 hb_set_digest_combiner_t<bits_pattern<uint32_t,0>, bits_pattern<uint32_t,9>>>`
with all masks zero. -/
def hbSetDigest : Digest :=
  .combiner (.bits cfg4 0) (.combiner (.bits cfg0 0) (.bits cfg9 0))

/-- The list of codepoints `a, a+1, ..., b`. -/
def rangeList (a b : Nat) : List Nat :=
  (List.range (b + 1 - a)).map (a + ·)

/-- Apply `add` once for each element of a list, left to right. -/
def Cfg.addList (c : Cfg) (l : List Nat) (m : Nat) : Nat :=
  l.foldl (fun m g => c.add g m) m

/-! ### Basic configuration lemmas -/

namespace Cfg

lemma mask_bits_eq_pow {c : Cfg} (hv : c.Valid) : c.mask_bits = 2 ^ c.num_bits := by
  rcases hv.1 with h | h | h | h | h <;> simp [num_bits, mask_bits, h]

lemma mask_bits_pos {c : Cfg} (hv : c.Valid) : 0 < c.mask_bits := by
  have h := hv.1
  unfold mask_bits
  omega

lemma mask_bits_ge {c : Cfg} (hv : c.Valid) : 8 ≤ c.mask_bits := by
  have h := hv.1
  unfold mask_bits
  omega

lemma bucket_lt {c : Cfg} (hW : 0 < c.mask_bits) (g : Nat) :
    c.bucket g < c.mask_bits := by
  have h : (g >>> c.shift) &&& (c.mask_bits - 1) ≤ c.mask_bits - 1 := Nat.and_le_right
  unfold bucket
  omega

lemma bucket_eq_mod {c : Cfg} (hv : c.Valid) (g : Nat) :
    c.bucket g = (g >>> c.shift) % c.mask_bits := by
  unfold bucket
  rw [mask_bits_eq_pow hv, Nat.and_pow_two_sub_one_eq_mod]

lemma mask_for_eq {c : Cfg} (hW : 0 < c.mask_bits) (g : Nat) :
    c.mask_for g = 2 ^ c.bucket g := by
  unfold mask_for
  rw [Nat.shiftLeft_eq, one_mul, Nat.mod_eq_of_lt]
  exact Nat.pow_lt_pow_right one_lt_two (bucket_lt hW g)

lemma mask_for_lt (c : Cfg) (g : Nat) : c.mask_for g < 2 ^ c.mask_bits :=
  Nat.mod_lt _ (Nat.pos_pow_of_pos _ (by omega))

lemma mask_for_zero_of_mask_bits_zero {c : Cfg} (h : c.mask_bits = 0) (g : Nat) :
    c.mask_for g = 0 := by
  unfold mask_for
  simp [h, Nat.mod_one]

/-- `may_have` unfolded to a `testBit` check. -/
lemma may_have_eq_testBit {c : Cfg} (hW : 0 < c.mask_bits) (m g : Nat) :
    c.may_have m g = m.testBit (c.bucket g) := by
  unfold may_have
  rw [mask_for_eq hW, Nat.and_two_pow]
  cases h : m.testBit (c.bucket g) <;> simp [h]

lemma may_have_iff {c : Cfg} {m g : Nat} :
    c.may_have m g = true ↔ 0 < c.mask_bits ∧ m.testBit (c.bucket g) = true := by
  rcases Nat.eq_zero_or_pos c.mask_bits with h | h
  · simp [may_have, mask_for_zero_of_mask_bits_zero h, h]
  · rw [may_have_eq_testBit h]
    simp [h]

/-- All-ones masks answer `true` for every codepoint. -/
lemma may_have_all_ones {c : Cfg} (hW : 0 < c.mask_bits) (g : Nat) :
    c.may_have (2 ^ c.mask_bits - 1) g = true := by
  rw [may_have_eq_testBit hW, Nat.testBit_two_pow_sub_one]
  simpa using bucket_lt hW g

/-! ### Wraparound subtraction lemmas -/

lemma wsub_of_le {w x y : Nat} (hyx : y ≤ x) (hx : x < 2 ^ w) :
    wsub w x y = x - y := by
  unfold wsub
  rw [Nat.mod_eq_of_lt hx, Nat.mod_eq_of_lt (lt_of_le_of_lt hyx hx)]
  have h2 : 2 ^ w + x - y = 2 ^ w + (x - y) := by omega
  rw [h2, Nat.add_mod_left, Nat.mod_eq_of_lt (by omega)]

lemma wsub_of_lt {w x y : Nat} (hxy : x < y) (hy : y < 2 ^ w) :
    wsub w x y = 2 ^ w + x - y := by
  unfold wsub
  rw [Nat.mod_eq_of_lt (lt_trans hxy hy), Nat.mod_eq_of_lt hy,
      Nat.mod_eq_of_lt (by omega)]

lemma wsub_zero {w x : Nat} (hx : x < 2 ^ w) : wsub w x 0 = x := by
  rw [wsub_of_le (Nat.zero_le x) hx]
  omega

end Cfg

/-! ### Bits of the branchless contiguous-run value -/

lemma testBit_two_pow_sub_two_pow {i j : Nat} (hij : i ≤ j) (k : Nat) :
    ((2 : Nat) ^ j - 2 ^ i).testBit k = (decide (i ≤ k) && decide (k < j)) := by
  obtain ⟨e, rfl⟩ : ∃ e, j = i + e := ⟨j - i, by omega⟩
  have h1 : (2 : Nat) ^ i * (2 ^ e - 1 + 1) = 2 ^ i * (2 ^ e - 1) + 2 ^ i :=
    Nat.mul_succ _ _
  have h2 : (2 : Nat) ^ e - 1 + 1 = 2 ^ e :=
    Nat.succ_pred_eq_of_pos (Nat.pos_pow_of_pos _ (by norm_num))
  have h3 : (2 : Nat) ^ i * 2 ^ e = 2 ^ (i + e) := (pow_add 2 i e).symm
  have h4 : (2 : Nat) ^ (i + e) - 2 ^ i = 2 ^ i * (2 ^ e - 1) := by
    rw [h2] at h1
    omega
  rw [h4, Nat.testBit_mul_pow_two, Nat.testBit_two_pow_sub_one]
  rcases Nat.lt_or_ge k i with hk | hk
  · simp only [Nat.not_le.mpr hk]
    simp [Nat.not_le_of_lt hk]
  · simp only [ge_iff_le, hk, decide_True, Bool.true_and]
    exact decide_eq_decide.mpr (by omega)

/-- The bits of the value `mb + (mb - ma) - (mb < ma)` computed by
`add_range` in `mask_t` arithmetic (with `ma`, `mb` the bucket bits of the
shifted endpoints `sa` and `sa + d`) are exactly the residues mod `W` of
the shifted values in `[sa, sa + d]`, provided `d + 1 < W`. -/
lemma run_bits {W : Nat} (hW : 0 < W) {sa d : Nat} (hd : d + 1 < W) (k : Nat) :
    (Cfg.wsub W
        ((2 ^ ((sa + d) % W) + Cfg.wsub W (2 ^ ((sa + d) % W)) (2 ^ (sa % W))) % 2 ^ W)
        (if 2 ^ ((sa + d) % W) < 2 ^ (sa % W) then 1 else 0)).testBit k = true ↔
      ∃ e, e ≤ d ∧ (sa + e) % W = k := by
  have hba : sa % W < W := Nat.mod_lt _ hW
  have hdW : d < W := by omega
  have hmod : ∀ e, (sa + e) % W = (sa % W + e) % W := fun e => (Nat.mod_add_mod sa W e).symm
  rcases Nat.lt_or_ge (sa % W + d) W with hA | hB
  · -- no wraparound of the bucket interval
    have hbb : (sa + d) % W = sa % W + d := by
      rw [hmod d, Nat.mod_eq_of_lt hA]
    rw [hbb, if_neg (Nat.not_lt.mpr (Nat.pow_le_pow_right (by norm_num) (by omega)))]
    have hplt : (2 : Nat) ^ (sa % W + d) < 2 ^ W := Nat.pow_lt_pow_right one_lt_two (by omega)
    have hpale : (2 : Nat) ^ (sa % W) ≤ 2 ^ (sa % W + d) :=
      Nat.pow_le_pow_right (by norm_num) (by omega)
    rw [Cfg.wsub_of_le hpale hplt]
    have h2 : (2 : Nat) ^ (sa % W + d + 1) = 2 ^ (sa % W + d) * 2 := pow_succ 2 _
    have hsum : (2 : Nat) ^ (sa % W + d) + (2 ^ (sa % W + d) - 2 ^ (sa % W))
        = 2 ^ (sa % W + d + 1) - 2 ^ (sa % W) := by omega
    have h3 : (2 : Nat) ^ (sa % W + d + 1) ≤ 2 ^ W := Nat.pow_le_pow_right (by norm_num) (by omega)
    have h4 : (0 : Nat) < 2 ^ (sa % W) := Nat.pos_pow_of_pos _ (by norm_num)
    have hv1 : (2 : Nat) ^ (sa % W + d + 1) - 2 ^ (sa % W) < 2 ^ W := by omega
    rw [hsum, Nat.mod_eq_of_lt hv1, Cfg.wsub_zero hv1,
        testBit_two_pow_sub_two_pow (by omega)]
    simp only [Bool.and_eq_true, decide_eq_true_eq]
    constructor
    · rintro ⟨h5, h6⟩
      refine ⟨k - sa % W, by omega, ?_⟩
      rw [hmod]
      have h7 : sa % W + (k - sa % W) = k := by omega
      rw [h7, Nat.mod_eq_of_lt (by omega)]
    · rintro ⟨e, he, hek⟩
      rw [hmod, Nat.mod_eq_of_lt (by omega)] at hek
      omega
  · -- the bucket interval wraps
    have hba2 : 2 ≤ sa % W := by omega
    have hbb : (sa + d) % W = sa % W + d - W := by
      rw [hmod d, Nat.mod_eq_sub_mod hB, Nat.mod_eq_of_lt (by omega)]
    have hbblt : sa % W + d - W + 1 < sa % W := by omega
    rw [hbb, if_pos (Nat.pow_lt_pow_right one_lt_two (by omega))]
    have hpalt : (2 : Nat) ^ (sa % W) < 2 ^ W := Nat.pow_lt_pow_right one_lt_two hba
    have hpblt : (2 : Nat) ^ (sa % W + d - W) < 2 ^ (sa % W) :=
      Nat.pow_lt_pow_right one_lt_two (by omega)
    rw [Cfg.wsub_of_lt hpblt hpalt]
    have h2 : (2 : Nat) ^ (sa % W + d - W + 1) = 2 ^ (sa % W + d - W) * 2 := pow_succ 2 _
    have h2b : (2 : Nat) ^ (sa % W + d - W + 1) < 2 ^ (sa % W) :=
      Nat.pow_lt_pow_right one_lt_two (by omega)
    have hsum : (2 : Nat) ^ (sa % W + d - W) + (2 ^ W + 2 ^ (sa % W + d - W) - 2 ^ (sa % W))
        = 2 ^ W + 2 ^ (sa % W + d - W + 1) - 2 ^ (sa % W) := by omega
    have hv1 : (2 : Nat) ^ W + 2 ^ (sa % W + d - W + 1) - 2 ^ (sa % W) < 2 ^ W := by omega
    have h4 : (0 : Nat) < 2 ^ (sa % W + d - W + 1) := Nat.pos_pow_of_pos _ (by norm_num)
    rw [hsum, Nat.mod_eq_of_lt hv1, Cfg.wsub_of_le (by omega) hv1]
    -- rewrite the value in split form for testBit
    have e1 : (2 : Nat) ^ (sa % W) * 2 ^ (W - sa % W) = 2 ^ W := by
      rw [← pow_add]
      congr 1
      omega
    have e2 : (0 : Nat) < 2 ^ (W - sa % W) := Nat.pos_pow_of_pos _ (by norm_num)
    have e3 : (2 : Nat) ^ (sa % W) * (2 ^ (W - sa % W) - 1 + 1)
        = 2 ^ (sa % W) * (2 ^ (W - sa % W) - 1) + 2 ^ (sa % W) := Nat.mul_succ _ _
    have e4 : (2 : Nat) ^ (W - sa % W) - 1 + 1 = 2 ^ (W - sa % W) :=
      Nat.succ_pred_eq_of_pos e2
    rw [e4] at e3
    have hsplit : (2 : Nat) ^ W + 2 ^ (sa % W + d - W + 1) - 2 ^ (sa % W) - 1
        = 2 ^ (sa % W) * (2 ^ (W - sa % W) - 1) + (2 ^ (sa % W + d - W + 1) - 1) := by
      omega
    have hblt : (2 : Nat) ^ (sa % W + d - W + 1) - 1 < 2 ^ (sa % W) := by omega
    rw [hsplit, Nat.testBit_mul_pow_two_add _ hblt, Nat.testBit_two_pow_sub_one,
        Nat.testBit_two_pow_sub_one]
    constructor
    · intro h5
      by_cases hk : k < sa % W
      · rw [if_pos hk] at h5
        have h6 : k < sa % W + d - W + 1 := by simpa using h5
        refine ⟨k + W - sa % W, by omega, ?_⟩
        rw [hmod]
        have h7 : sa % W + (k + W - sa % W) = k + W := by omega
        rw [h7, Nat.add_mod_right, Nat.mod_eq_of_lt (by omega)]
      · rw [if_neg hk] at h5
        have h6 : k - sa % W < W - sa % W := by simpa using h5
        refine ⟨k - sa % W, by omega, ?_⟩
        rw [hmod]
        have h7 : sa % W + (k - sa % W) = k := by omega
        rw [h7, Nat.mod_eq_of_lt (by omega)]
    · rintro ⟨e, he, hek⟩
      rw [hmod] at hek
      rcases Nat.lt_or_ge (sa % W + e) W with hc | hc
      · rw [Nat.mod_eq_of_lt hc] at hek
        rw [if_neg (by omega)]
        simp only [decide_eq_true_eq]
        omega
      · rw [Nat.mod_eq_sub_mod hc, Nat.mod_eq_of_lt (by omega)] at hek
        rw [if_pos (by omega)]
        simp only [decide_eq_true_eq]
        omega

/-! ### Shift helpers and bucket coverage -/

lemma shiftR_mono (s : Nat) {a b : Nat} (h : a ≤ b) : a >>> s ≤ b >>> s := by
  simp only [Nat.shiftRight_eq_div_pow]
  exact Nat.div_le_div_right h

lemma shiftR_le_self (a s : Nat) : a >>> s ≤ a := by
  simp only [Nat.shiftRight_eq_div_pow]
  exact Nat.div_le_self _ _

/-- Every shifted value between the shifted endpoints of an ordered range
is the shifted value of some codepoint in the range. -/
lemma exists_codepoint_of_shifted (s : Nat) {a b sc : Nat} (hab : a ≤ b)
    (h1 : a >>> s ≤ sc) (h2 : sc ≤ b >>> s) :
    ∃ x, a ≤ x ∧ x ≤ b ∧ x >>> s = sc := by
  have hpos : (0 : Nat) < 2 ^ s := Nat.pos_pow_of_pos _ (by norm_num)
  rcases Nat.eq_or_lt_of_le h1 with he | hlt
  · exact ⟨a, Nat.le_refl a, hab, he⟩
  · refine ⟨sc <<< s, ?_, ?_, ?_⟩
    · rw [Nat.shiftLeft_eq]
      rw [Nat.shiftRight_eq_div_pow] at hlt
      have hq := Nat.div_add_mod a (2 ^ s)
      have hr : a % 2 ^ s < 2 ^ s := Nat.mod_lt _ hpos
      have hmul : 2 ^ s * (a / 2 ^ s + 1) ≤ 2 ^ s * sc := Nat.mul_le_mul_left _ hlt
      have hms : 2 ^ s * (a / 2 ^ s + 1) = 2 ^ s * (a / 2 ^ s) + 2 ^ s := Nat.mul_succ _ _
      have hcomm : sc * 2 ^ s = 2 ^ s * sc := Nat.mul_comm _ _
      omega
    · rw [Nat.shiftLeft_eq]
      rw [Nat.shiftRight_eq_div_pow] at h2
      calc sc * 2 ^ s ≤ b / 2 ^ s * 2 ^ s := Nat.mul_le_mul_right _ h2
        _ ≤ b := Nat.div_mul_le_self _ _
    · rw [Nat.shiftLeft_eq, Nat.shiftRight_eq_div_pow]
      exact Nat.mul_div_cancel _ hpos

/-- When a range spans at least `W - 1` consecutive shifted values, every
residue mod `W` is hit. -/
lemma exists_shifted_with_mod {W : Nat} (hW : 0 < W) (sa : Nat) {d k : Nat}
    (hk : k < W) (hd : W - 1 ≤ d) : ∃ e, e ≤ d ∧ (sa + e) % W = k := by
  have hba : sa % W < W := Nat.mod_lt _ hW
  refine ⟨(W + k - sa % W) % W, ?_, ?_⟩
  · have h5 : (W + k - sa % W) % W < W := Nat.mod_lt _ hW
    omega
  · rw [← Nat.mod_add_mod, Nat.add_mod_mod]
    have h7 : sa % W + (W + k - sa % W) = W + k := by omega
    rw [h7, Nat.add_mod_left, Nat.mod_eq_of_lt hk]

/-! ### Branch lemmas for add_range -/

namespace Cfg

lemma add_range_sat {c : Cfg} {a b : Nat}
    (hcond : c.mask_bits - 1 ≤ wsub codepointBits (b >>> c.shift) (a >>> c.shift))
    (m : Nat) : (c.add_range a b m).1 = 2 ^ c.mask_bits - 1 := by
  simp only [add_range, if_pos hcond]

lemma add_range_not_sat {c : Cfg} {a b : Nat}
    (hcond : ¬ (c.mask_bits - 1 ≤ wsub codepointBits (b >>> c.shift) (a >>> c.shift)))
    (m : Nat) : (c.add_range a b m).1 =
      m ||| wsub c.mask_bits
        ((c.mask_for b + wsub c.mask_bits (c.mask_for b) (c.mask_for a)) % 2 ^ c.mask_bits)
        (if c.mask_for b < c.mask_for a then 1 else 0) := by
  simp only [add_range, if_neg hcond]

lemma add_range_snd (c : Cfg) (a b m : Nat) : (c.add_range a b m).2 = true := by
  rw [add_range]
  split <;> rfl

/-- Forward soundness of `add_range` on an ordered range: the bucket bit of
every codepoint in the range is set afterwards. -/
lemma add_range_testBit_of_mem {c : Cfg} (hv : c.Valid) {a b g : Nat} (hab : a ≤ b)
    (hb : b < 2 ^ 32) (hg1 : a ≤ g) (hg2 : g ≤ b) (m : Nat) :
    ((c.add_range a b m).1).testBit (c.bucket g) = true := by
  have hW : 0 < c.mask_bits := mask_bits_pos hv
  have hsasb : a >>> c.shift ≤ b >>> c.shift := shiftR_mono _ hab
  have hsblt : b >>> c.shift < 2 ^ 32 := lt_of_le_of_lt (shiftR_le_self b _) hb
  have hcondeq : wsub codepointBits (b >>> c.shift) (a >>> c.shift)
      = b >>> c.shift - a >>> c.shift := wsub_of_le hsasb hsblt
  have hbg : c.bucket g = (g >>> c.shift) % c.mask_bits := bucket_eq_mod hv g
  by_cases hcond : c.mask_bits - 1 ≤ wsub codepointBits (b >>> c.shift) (a >>> c.shift)
  · rw [add_range_sat hcond, Nat.testBit_two_pow_sub_one, decide_eq_true_eq, hbg]
    exact Nat.mod_lt _ hW
  · rw [add_range_not_sat hcond, Nat.testBit_or, Bool.or_eq_true]
    right
    obtain ⟨d, hd⟩ : ∃ d, b >>> c.shift = a >>> c.shift + d :=
      ⟨b >>> c.shift - a >>> c.shift, by omega⟩
    have hd2 : d + 1 < c.mask_bits := by
      rw [hcondeq] at hcond
      omega
    have hmf : ∀ x, c.mask_for x = 2 ^ ((x >>> c.shift) % c.mask_bits) := fun x => by
      rw [mask_for_eq hW, bucket_eq_mod hv]
    rw [hmf a, hmf b, hbg, hd]
    apply (run_bits hW hd2 _).mpr
    have hg3 : a >>> c.shift ≤ g >>> c.shift := shiftR_mono _ hg1
    have hg4 : g >>> c.shift ≤ a >>> c.shift + d := hd ▸ shiftR_mono _ hg2
    refine ⟨g >>> c.shift - a >>> c.shift, by omega, ?_⟩
    congr 1
    omega

/-- Full characterization of the bits of the mask after `add_range` on an
ordered range: the old bits plus exactly the buckets of the range. -/
lemma add_range_testBit_iff {c : Cfg} (hv : c.Valid) {a b : Nat} (hab : a ≤ b)
    (hb : b < 2 ^ 32) {m : Nat} (hm : m < 2 ^ c.mask_bits) (k : Nat) :
    ((c.add_range a b m).1).testBit k = true ↔
      (m.testBit k = true ∨ ∃ x, a ≤ x ∧ x ≤ b ∧ c.bucket x = k) := by
  have hW : 0 < c.mask_bits := mask_bits_pos hv
  have hsasb : a >>> c.shift ≤ b >>> c.shift := shiftR_mono _ hab
  have hsblt : b >>> c.shift < 2 ^ 32 := lt_of_le_of_lt (shiftR_le_self b _) hb
  have hcondeq : wsub codepointBits (b >>> c.shift) (a >>> c.shift)
      = b >>> c.shift - a >>> c.shift := wsub_of_le hsasb hsblt
  by_cases hcond : c.mask_bits - 1 ≤ wsub codepointBits (b >>> c.shift) (a >>> c.shift)
  · rw [add_range_sat hcond, Nat.testBit_two_pow_sub_one, decide_eq_true_eq]
    constructor
    · intro hk
      right
      rw [hcondeq] at hcond
      obtain ⟨e, he, hek⟩ :=
        exists_shifted_with_mod hW (a >>> c.shift) hk hcond
      obtain ⟨x, hx1, hx2, hx3⟩ :=
        exists_codepoint_of_shifted c.shift hab (Nat.le_add_right _ e) (by omega)
      exact ⟨x, hx1, hx2, by rw [bucket_eq_mod hv, hx3, hek]⟩
    · rintro (hk | ⟨x, -, -, hx3⟩)
      · have h8 := Nat.testBit_implies_ge hk
        by_contra hkW
        have h9 : (2 : Nat) ^ c.mask_bits ≤ 2 ^ k :=
          Nat.pow_le_pow_right (by norm_num) (by omega)
        omega
      · rw [← hx3]
        exact bucket_lt hW x
  · rw [add_range_not_sat hcond, Nat.testBit_or, Bool.or_eq_true]
    obtain ⟨d, hd⟩ : ∃ d, b >>> c.shift = a >>> c.shift + d :=
      ⟨b >>> c.shift - a >>> c.shift, by omega⟩
    have hd2 : d + 1 < c.mask_bits := by
      rw [hcondeq] at hcond
      omega
    have hmf : ∀ x, c.mask_for x = 2 ^ ((x >>> c.shift) % c.mask_bits) := fun x => by
      rw [mask_for_eq hW, bucket_eq_mod hv]
    rw [hmf a, hmf b, hd]
    apply or_congr_right
    rw [run_bits hW hd2 k]
    constructor
    · rintro ⟨e, he, hek⟩
      obtain ⟨x, hx1, hx2, hx3⟩ :=
        exists_codepoint_of_shifted c.shift hab (Nat.le_add_right _ e) (by omega)
      exact ⟨x, hx1, hx2, by rw [bucket_eq_mod hv, hx3, hek]⟩
    · rintro ⟨x, hx1, hx2, hx3⟩
      have hg3 : a >>> c.shift ≤ x >>> c.shift := shiftR_mono _ hx1
      have hg4 : x >>> c.shift ≤ a >>> c.shift + d := hd ▸ shiftR_mono _ hx2
      rw [bucket_eq_mod hv] at hx3
      refine ⟨x >>> c.shift - a >>> c.shift, by omega, ?_⟩
      rw [← hx3]
      congr 1
      omega

/-! ### Fold lemmas -/

lemma addList_cons (c : Cfg) (y : Nat) (ys : List Nat) (m : Nat) :
    c.addList (y :: ys) m = c.addList ys (c.add y m) := rfl

lemma addList_testBit (c : Cfg) (l : List Nat) (m k : Nat) :
    (c.addList l m).testBit k
      = (m.testBit k || l.any fun x => (c.mask_for x).testBit k) := by
  induction l generalizing m with
  | nil => simp [addList]
  | cons y ys ih =>
      rw [addList_cons, ih, add, Nat.testBit_or]
      simp [Bool.or_assoc]

lemma addList_lt {c : Cfg} (l : List Nat) {m : Nat} (hm : m < 2 ^ c.mask_bits) :
    c.addList l m < 2 ^ c.mask_bits := by
  induction l generalizing m with
  | nil => exact hm
  | cons y ys ih =>
      rw [addList_cons]
      exact ih (Nat.or_lt_two_pow hm (mask_for_lt c y))

lemma add_array_eq_addList (c : Cfg) (read : Nat → Nat) (count stride m : Nat) :
    c.add_array read count stride m
      = c.addList ((List.range count).map fun i => read (i * stride)) m := by
  rw [add_array, addList, List.foldl_map]

lemma add_sorted_array_fst (c : Cfg) (read : Nat → Nat) (count stride m : Nat) :
    (c.add_sorted_array read count stride m).1 = c.add_array read count stride m := rfl

/-! ### Per-operation soundness and monotonicity on a leaf filter -/

lemma applyOp_testBit_mono {c : Cfg} {m : Nat} (o : Op) {k : Nat}
    (hk : k < c.mask_bits) (h : m.testBit k = true) :
    (c.applyOp m o).testBit k = true := by
  cases o with
  | add x =>
      rw [applyOp, add, Nat.testBit_or, h]
      rfl
  | add_range a b =>
      by_cases hcond :
        c.mask_bits - 1 ≤ wsub codepointBits (b >>> c.shift) (a >>> c.shift)
      · rw [applyOp, add_range_sat hcond, Nat.testBit_two_pow_sub_one]
        simpa using hk
      · rw [applyOp, add_range_not_sat hcond, Nat.testBit_or, h]
        rfl
  | add_array read count stride =>
      rw [applyOp, add_array_eq_addList, addList_testBit, h]
      rfl
  | add_sorted_array read count stride =>
      rw [applyOp, add_sorted_array_fst, add_array_eq_addList, addList_testBit, h]
      rfl

lemma applyOp_may_have_mono (c : Cfg) (o : Op) {m g : Nat}
    (h : c.may_have m g = true) : c.may_have (c.applyOp m o) g = true := by
  obtain ⟨hW, htb⟩ := may_have_iff.mp h
  exact may_have_iff.mpr ⟨hW, applyOp_testBit_mono o (bucket_lt hW g) htb⟩

lemma runOps_may_have_mono (c : Cfg) (ops : List Op) {m g : Nat}
    (h : c.may_have m g = true) : c.may_have (c.runOps ops m) g = true := by
  induction ops generalizing m with
  | nil => exact h
  | cons o rest ih => exact ih (applyOp_may_have_mono c o h)

lemma addList_sound {c : Cfg} (hv : c.Valid) {l : List Nat} {g : Nat} (hg : g ∈ l)
    (m : Nat) : c.may_have (c.addList l m) g = true := by
  have hW := mask_bits_pos hv
  apply may_have_iff.mpr
  refine ⟨hW, ?_⟩
  rw [addList_testBit, Bool.or_eq_true]
  right
  refine List.any_eq_true.mpr ⟨g, hg, ?_⟩
  rw [mask_for_eq hW, Nat.testBit_two_pow_self]

/-- Each single operation makes its own logical members answer `true`. -/
lemma applyOp_sound {c : Cfg} (hv : c.Valid) {o : Op} (ho : o.Valid) {g : Nat}
    (hg : o.Contains g) (m : Nat) : c.may_have (c.applyOp m o) g = true := by
  have hW := mask_bits_pos hv
  cases o with
  | add x =>
      obtain rfl : x = g := hg
      apply may_have_iff.mpr
      refine ⟨hW, ?_⟩
      rw [applyOp, add, Nat.testBit_or, mask_for_eq hW, Nat.testBit_two_pow_self,
          Bool.or_true]
  | add_range a b =>
      obtain ⟨hg1, hg2⟩ := hg
      obtain ⟨hab, hblt⟩ := ho
      apply may_have_iff.mpr
      exact ⟨hW, add_range_testBit_of_mem hv hab hblt hg1 hg2 m⟩
  | add_array read count stride =>
      obtain ⟨i, hi, hig⟩ := hg
      rw [applyOp, add_array_eq_addList]
      exact addList_sound hv (List.mem_map.mpr ⟨i, List.mem_range.mpr hi, hig⟩) m
  | add_sorted_array read count stride =>
      obtain ⟨i, hi, hig⟩ := hg
      rw [applyOp, add_sorted_array_fst, add_array_eq_addList]
      exact addList_sound hv (List.mem_map.mpr ⟨i, List.mem_range.mpr hi, hig⟩) m

end Cfg

/-! ### Digest-level structure lemmas -/

namespace Digest

lemma applyOp_bits (c : Cfg) (m : Nat) (o : Op) :
    (Digest.bits c m).applyOp o = .bits c (c.applyOp m o) := by
  cases o <;> rfl

lemma applyOp_combiner (h t : Digest) (o : Op) :
    (Digest.combiner h t).applyOp o = .combiner (h.applyOp o) (t.applyOp o) := by
  cases o <;> rfl

lemma runOps_bits (ops : List Op) (c : Cfg) (m : Nat) :
    Digest.runOps ops (.bits c m) = .bits c (c.runOps ops m) := by
  induction ops generalizing m with
  | nil => rfl
  | cons o rest ih =>
      show Digest.runOps rest ((Digest.bits c m).applyOp o) = _
      rw [applyOp_bits]
      exact ih _

lemma runOps_combiner (ops : List Op) (h t : Digest) :
    Digest.runOps ops (.combiner h t)
      = .combiner (Digest.runOps ops h) (Digest.runOps ops t) := by
  induction ops generalizing h t with
  | nil => rfl
  | cons o rest ih =>
      show Digest.runOps rest ((Digest.combiner h t).applyOp o) = _
      rw [applyOp_combiner]
      exact ih _ _

lemma may_have_applyOp_mono (d : Digest) (o : Op) (g : Nat)
    (h : d.may_have g = true) : (d.applyOp o).may_have g = true := by
  induction d with
  | bits c m =>
      rw [applyOp_bits]
      exact Cfg.applyOp_may_have_mono c o h
  | combiner dh dt ihh iht =>
      rw [applyOp_combiner]
      rw [may_have, Bool.and_eq_true] at h
      rw [may_have, Bool.and_eq_true]
      exact ⟨ihh h.1, iht h.2⟩

lemma may_have_runOps_mono (ops : List Op) (d : Digest) (g : Nat)
    (h : d.may_have g = true) : (Digest.runOps ops d).may_have g = true := by
  induction ops generalizing d with
  | nil => exact h
  | cons o rest ih => exact ih _ (may_have_applyOp_mono d o g h)

end Digest

/-! ### Claim theorems -/

/-- Claim C1 (Soundness): for every valid filter configuration (width,
shift with the static assertions), every finite sequence of `add`,
`add_range` (with `a ≤ b`), `add_array`, `add_sorted_array` calls after
`init` (mask 0) establishing a logical set, and every codepoint in that
set, `may_have` returns `true`. -/
theorem C1_soundness (c : Cfg) (hv : c.Valid) (ops : List Op)
    (hops : ∀ o ∈ ops, o.Valid) (g : Nat) (hg : ∃ o ∈ ops, o.Contains g) :
    c.may_have (c.runOps ops 0) g = true := by
  have main : ∀ (l : List Op) (m : Nat), (∀ o ∈ l, o.Valid) →
      (∃ o ∈ l, o.Contains g) → c.may_have (c.runOps l m) g = true := by
    intro l
    induction l with
    | nil =>
        rintro m - ⟨o, ho, -⟩
        simp at ho
    | cons o rest ih =>
        intro m hops2 hmem
        show c.may_have (c.runOps rest (c.applyOp m o)) g = true
        rcases hmem with ⟨o2, ho2, hcont⟩
        rcases List.mem_cons.mp ho2 with rfl | ho2r
        · exact Cfg.runOps_may_have_mono c rest
            (Cfg.applyOp_sound hv (hops2 o2 (List.mem_cons_self _ _)) hcont m)
        · exact ih _ (fun x hx => hops2 x (List.mem_cons_of_mem _ hx)) ⟨o2, ho2r, hcont⟩
  exact main ops 0 hops hg

theorem C1_soundness_witness :
    Cfg.may_have cfg0 (Cfg.runOps cfg0 [Op.add 5, Op.add_range 10 14] 0) 12 = true :=
  C1_soundness cfg0 (by decide) [Op.add 5, Op.add_range 10 14]
    (by
      intro o ho
      rcases List.mem_cons.mp ho with rfl | ho
      · exact (by norm_num : (5 : Nat) < 2 ^ 32)
      rcases List.mem_cons.mp ho with rfl | ho
      · exact ⟨by norm_num, by norm_num⟩
      · simp at ho)
    12 ⟨Op.add_range 10 14, by simp, by norm_num, by norm_num⟩

/-- Membership in the explicit list of codepoints of an ordered range. -/
lemma mem_rangeList {a b x : Nat} : x ∈ rangeList a b ↔ (a ≤ x ∧ x ≤ b ∧ a ≤ b) := by
  unfold rangeList
  simp only [List.mem_map, List.mem_range]
  constructor
  · rintro ⟨i, hi, rfl⟩
    omega
  · rintro ⟨h1, h2, h3⟩
    exact ⟨x - a, by omega, by omega⟩

/-- Claim C2 (Range/elementwise equivalence): for a valid filter and
codepoints `a ≤ b`, the mask after `add_range (a, b)` equals the mask after
calling `add` on every codepoint of `[a, b]` starting from the same mask;
and `may_have` is unchanged for every codepoint outside the range whose
bucket collides with no bucket of the range. -/
theorem C2_range_elementwise (c : Cfg) (hv : c.Valid) (a b : Nat) (hab : a ≤ b)
    (hb : b < 2 ^ 32) (m : Nat) (hm : m < 2 ^ c.mask_bits) :
    (c.add_range a b m).1 = c.addList (rangeList a b) m ∧
    ∀ g, (g < a ∨ b < g) → (∀ x, a ≤ x → x ≤ b → c.bucket x ≠ c.bucket g) →
      c.may_have (c.add_range a b m).1 g = c.may_have m g := by
  have hW := Cfg.mask_bits_pos hv
  have part1 : (c.add_range a b m).1 = c.addList (rangeList a b) m := by
    apply Nat.eq_of_testBit_eq
    intro k
    rw [Bool.eq_iff_iff, Cfg.add_range_testBit_iff hv hab hb hm k,
        Cfg.addList_testBit, Bool.or_eq_true, List.any_eq_true]
    apply or_congr_right
    constructor
    · rintro ⟨x, hx1, hx2, hx3⟩
      refine ⟨x, mem_rangeList.mpr ⟨hx1, hx2, hab⟩, ?_⟩
      rw [Cfg.mask_for_eq hW, hx3, Nat.testBit_two_pow_self]
    · rintro ⟨x, hx, hx3⟩
      obtain ⟨h1, h2, -⟩ := mem_rangeList.mp hx
      rw [Cfg.mask_for_eq hW, Nat.testBit_two_pow] at hx3
      exact ⟨x, h1, h2, of_decide_eq_true hx3⟩
  refine ⟨part1, ?_⟩
  intro g hout hcoll
  rw [part1, Cfg.may_have_eq_testBit hW, Cfg.may_have_eq_testBit hW,
      Cfg.addList_testBit]
  have hany : ((rangeList a b).any fun x => (c.mask_for x).testBit (c.bucket g))
      = false := by
    rw [List.any_eq_false]
    intro x hx
    obtain ⟨h1, h2, -⟩ := mem_rangeList.mp hx
    rw [Cfg.mask_for_eq hW, Nat.testBit_two_pow]
    simpa using hcoll x h1 h2
  rw [hany, Bool.or_false]

theorem C2_range_elementwise_witness :
    (cfg0.add_range 10 14 0).1 = cfg0.addList (rangeList 10 14) 0 :=
  (C2_range_elementwise cfg0 (by decide) 10 14 (by norm_num) (by norm_num) 0
    (by norm_num)).1

/-- Claim C3 as stated is false on the code: the saturation test compares
the difference of the shifted endpoints before bucket masking, not the
difference of the bucket indices.  With a 32-bit mask and shift 0,
`add_range (0, 32)` saturates the mask although `bucket 32 - bucket 0 = 0`
is smaller than `num_buckets - 1`. -/
theorem C3_counterexample :
    (cfg0.add_range 0 32 0).1 = 2 ^ 32 - 1 ∧
    cfg0.bucket 32 - cfg0.bucket 0 = 0 ∧
    ¬ (cfg0.mask_bits - 1 ≤ cfg0.bucket 32 - cfg0.bucket 0) := by
  refine ⟨by decide, by decide, by decide⟩

/-- Claim C3 amended: for a valid filter and `a ≤ b`, `add_range (a, b)`
saturates the mask to all-ones (for every starting mask) exactly when the
difference of the shifted endpoints `(b >> shift) - (a >> shift)` — not of
the bucket indices — is at least `mask_bits - 1`; in particular with a
32-bit mask and shift 0, `add_range (0, 40)` yields an all-ones mask and
`may_have` then answers `true` for every codepoint. -/
theorem C3_saturation (c : Cfg) (hv : c.Valid) (a b : Nat) (hab : a ≤ b)
    (hb : b < 2 ^ 32) :
    ((∀ m, m < 2 ^ c.mask_bits → (c.add_range a b m).1 = 2 ^ c.mask_bits - 1) ↔
      c.mask_bits - 1 ≤ b >>> c.shift - a >>> c.shift) ∧
    (cfg0.add_range 0 40 0).1 = 2 ^ 32 - 1 ∧
    ∀ x, cfg0.may_have (2 ^ 32 - 1) x = true := by
  have hW := Cfg.mask_bits_pos hv
  have hsasb : a >>> c.shift ≤ b >>> c.shift := shiftR_mono _ hab
  have hsblt : b >>> c.shift < 2 ^ 32 := lt_of_le_of_lt (shiftR_le_self b _) hb
  have hcondeq : Cfg.wsub codepointBits (b >>> c.shift) (a >>> c.shift)
      = b >>> c.shift - a >>> c.shift := Cfg.wsub_of_le hsasb hsblt
  refine ⟨⟨?_, ?_⟩, by decide, fun x => Cfg.may_have_all_ones (by decide) x⟩
  · intro hall
    by_contra hcond
    have hres := hall 0 (Nat.pos_pow_of_pos _ (by norm_num))
    have hiff := Cfg.add_range_testBit_iff hv hab hb
      (Nat.pos_pow_of_pos _ (by norm_num))
      (((b >>> c.shift - a >>> c.shift) + a >>> c.shift + 1) % c.mask_bits)
    rw [hres, Nat.testBit_two_pow_sub_one] at hiff
    have hk0 : ((b >>> c.shift - a >>> c.shift) + a >>> c.shift + 1) % c.mask_bits
        < c.mask_bits := Nat.mod_lt _ hW
    have hx := hiff.mp (by simpa using hk0)
    rcases hx with hx | ⟨x, hx1, hx2, hx3⟩
    · simp at hx
    · rw [Cfg.bucket_eq_mod hv] at hx3
      have hg3 : a >>> c.shift ≤ x >>> c.shift := shiftR_mono _ hx1
      have hg4 : x >>> c.shift ≤ b >>> c.shift := shiftR_mono _ hx2
      have hdlt : b >>> c.shift - a >>> c.shift + 1 < c.mask_bits := by omega
      obtain ⟨e, he⟩ : ∃ e, x >>> c.shift = a >>> c.shift + e :=
        ⟨x >>> c.shift - a >>> c.shift, by omega⟩
      have he2 : e ≤ b >>> c.shift - a >>> c.shift := by omega
      rw [he] at hx3
      have hmodeq : (a >>> c.shift + e) % c.mask_bits
          = (a >>> c.shift + (b >>> c.shift - a >>> c.shift + 1)) % c.mask_bits := by
        rw [hx3]
        congr 1
        omega
      have hcancel : e % c.mask_bits
          = (b >>> c.shift - a >>> c.shift + 1) % c.mask_bits :=
        Nat.ModEq.add_left_cancel' _ hmodeq
      rw [Nat.mod_eq_of_lt (by omega), Nat.mod_eq_of_lt (by omega)] at hcancel
      omega
  · intro hcond m hm
    exact Cfg.add_range_sat (by rw [hcondeq]; exact hcond) m

theorem C3_saturation_witness :
    (cfg0.add_range 0 40 0).1 = 2 ^ cfg0.mask_bits - 1 :=
  ((C3_saturation cfg0 (by decide) 0 40 (by norm_num) (by norm_num)).1).mpr
    (by decide) 0 (by norm_num)

/-- Claim C4 (Conjunction law): for every combiner over child filters head
and tail, every codepoint, and every state reached by applying any sequence
of mutating calls to the combiner (each forwarded to both children), the
combiner's `may_have` is the conjunction of the children's answers. -/
theorem C4_conjunction (ops : List Op) (h t : Digest) (g : Nat) :
    (Digest.runOps ops (.combiner h t)).may_have g
      = ((Digest.runOps ops h).may_have g && (Digest.runOps ops t).may_have g) := by
  rw [Digest.runOps_combiner]
  rfl

/-- Claim C6 (Monotonicity): for every filter — leaf or combiner — once
`may_have` answers `true` for a codepoint, it still answers `true` after
any further sequence of `add`, `add_range`, `add_array`, `add_sorted_array`
calls; equivalently, on a leaf each mutating call only ever sets mask bits
and never clears one (for masks within the mask width). -/
theorem C6_monotonic :
    (∀ (d : Digest) (ops : List Op) (g : Nat),
        d.may_have g = true → (Digest.runOps ops d).may_have g = true) ∧
    (∀ (c : Cfg) (m : Nat), m < 2 ^ c.mask_bits → ∀ (o : Op) (k : Nat),
        m.testBit k = true → (c.applyOp m o).testBit k = true) := by
  refine ⟨fun d ops g h => Digest.may_have_runOps_mono ops d g h, ?_⟩
  intro c m hm o k htb
  refine Cfg.applyOp_testBit_mono o ?_ htb
  have h8 := Nat.testBit_implies_ge htb
  by_contra hkW
  have h9 : (2 : Nat) ^ c.mask_bits ≤ 2 ^ k :=
    Nat.pow_le_pow_right (by norm_num) (by omega)
  omega

theorem C6_monotonic_witness :
    (Digest.runOps [Op.add 7] (Digest.bits cfg0 (Cfg.mask_for cfg0 5))).may_have 5
      = true ∧
    (Cfg.applyOp cfg0 (Cfg.mask_for cfg0 5) (Op.add 7)).testBit (Cfg.bucket cfg0 5)
      = true :=
  ⟨C6_monotonic.1 (Digest.bits cfg0 (Cfg.mask_for cfg0 5)) [Op.add 7] 5 (by decide),
   C6_monotonic.2 cfg0 (Cfg.mask_for cfg0 5) (by decide) (Op.add 7)
     (Cfg.bucket cfg0 5) (by decide)⟩

/-- Claim C7 (Sorted-array equivalence): for every filter (leaf or
combiner), buffer, count and stride, `add_sorted_array` produces exactly
the same mask state as `add_array` (and returns `true`), hence the same
subsequent `may_have` answers; no sortedness precondition is used. -/
theorem C7_sorted_array_equiv (d : Digest) (read : Nat → Nat) (count stride : Nat) :
    (d.add_sorted_array read count stride).1 = d.add_array read count stride ∧
    (d.add_sorted_array read count stride).2 = true ∧
    ∀ g, ((d.add_sorted_array read count stride).1).may_have g
        = (d.add_array read count stride).may_have g := by
  have h1 : (d.add_sorted_array read count stride).1 = d.add_array read count stride := by
    induction d with
    | bits c m => rfl
    | combiner dh dt ihh iht =>
        show Digest.combiner _ _ = Digest.combiner _ _
        rw [ihh, iht]
  have h2 : (d.add_sorted_array read count stride).2 = true := by
    cases d <;> rfl
  exact ⟨h1, h2, fun g => by rw [h1]⟩

/-- Claim C8 (Three-way composite scenario): after `init` on the production
digest (32-bit masks at shifts 4, 0, 9) and adding the single glyph 1000,
`may_have 1000` is `true`, and glyph 0 — whose three bucket indices all
differ from those of 1000 — answers `false`. -/
theorem C8_composite :
    ((hbSetDigest.init).add 1000).may_have 1000 = true ∧
    ∃ g : Nat, cfg4.bucket g ≠ cfg4.bucket 1000 ∧ cfg0.bucket g ≠ cfg0.bucket 1000 ∧
      cfg9.bucket g ≠ cfg9.bucket 1000 ∧ ((hbSetDigest.init).add 1000).may_have g = false :=
  ⟨by decide, 0, by decide, by decide, by decide, by decide⟩

/-! ### The vector query path, lanewise -/

lemma set1_apply (x : Nat) (i : Fin 8) : set1_epi32 x i = x % 2 ^ 32 := rfl

lemma and_apply (u v : Lanes) (i : Fin 8) :
    and_si256 u v i = (u i % 2 ^ 32) &&& (v i % 2 ^ 32) := rfl

lemma sllv_apply (u v : Lanes) (i : Fin 8) :
    sllv_epi32 u v i =
      if v i % 2 ^ 32 < 32 then ((u i % 2 ^ 32) <<< (v i % 2 ^ 32)) % 2 ^ 32 else 0 := rfl

lemma shifted_apply {c : Cfg} {v : Lanes} {i : Fin 8} (hv : v i < 2 ^ 32) :
    c.shifted v i = v i >>> c.shift := by
  unfold Cfg.shifted srli_epi32
  split
  · next h0 => rw [h0, Nat.shiftRight_zero]
  · show (v i % 2 ^ 32) >>> c.shift = v i >>> c.shift
    rw [Nat.mod_eq_of_lt hv]

/-- Claim C5 amended (Vector/scalar equivalence): for every populated
filter whose mask is at most 32 bits wide — which covers every production
filter — and every batch of 8 packed 32-bit codepoints, the vectorized
`may_have` answers `true` exactly when the scalar `may_have` answers `true`
on at least one lane; hence any batch containing a scalar hit reports
`true`.  (For wider masks the AVX2 path truncates; see the
counterexample.) -/
theorem C5_vector_scalar (c : Cfg) (hv : c.Valid) (hw : c.mask_bytes ≤ 4)
    (m : Nat) (hm : m < 2 ^ c.mask_bits) (g : Lanes) (hg : ∀ i, g i < 2 ^ 32) :
    (c.may_have_vec m g = true ↔ ∃ i, c.may_have m (g i) = true) ∧
    ∀ i0 : Fin 8, c.may_have m (g i0) = true → c.may_have_vec m g = true := by
  have hW := Cfg.mask_bits_pos hv
  have hWle : c.mask_bits ≤ 32 := by
    unfold Cfg.mask_bits
    omega
  have hm32 : m < 2 ^ 32 :=
    lt_of_lt_of_le hm (Nat.pow_le_pow_right (by norm_num) hWle)
  have hlane : ∀ i : Fin 8,
      and_si256 (set1_epi32 m) (c.mask_for_vec g) i = m &&& c.mask_for (g i) := by
    intro i
    have hb1 : c.bucket (g i) < 32 := lt_of_lt_of_le (Cfg.bucket_lt hW (g i)) hWle
    have hshlt : g i >>> c.shift < 2 ^ 32 :=
      lt_of_le_of_lt (shiftR_le_self (g i) c.shift) (hg i)
    have hand : and_si256 (c.shifted g) (set1_epi32 (c.mask_bits - 1)) i
        = c.bucket (g i) := by
      rw [and_apply, set1_apply, shifted_apply (hg i), Nat.mod_eq_of_lt hshlt,
          Nat.mod_eq_of_lt (show c.mask_bits - 1 < 2 ^ 32 by
            have : (32 : Nat) < 2 ^ 32 := by norm_num
            omega),
          Nat.mod_eq_of_lt (show c.mask_bits - 1 < 2 ^ 32 by
            have : (32 : Nat) < 2 ^ 32 := by norm_num
            omega)]
      rfl
    have hmv : c.mask_for_vec g i = 2 ^ c.bucket (g i) := by
      simp only [Cfg.mask_for_vec]
      rw [sllv_apply, hand, Nat.mod_eq_of_lt (lt_trans hb1 (by norm_num)),
          if_pos hb1, set1_apply]
      simp only [show (1 : Nat) % 2 ^ 32 = 1 from by norm_num]
      rw [Nat.shiftLeft_eq, one_mul,
          Nat.mod_eq_of_lt (Nat.pow_lt_pow_right one_lt_two hb1)]
    rw [and_apply, set1_apply, Nat.mod_eq_of_lt hm32, Nat.mod_eq_of_lt hm32, hmv,
        Nat.mod_eq_of_lt (Nat.pow_lt_pow_right one_lt_two hb1),
        Cfg.mask_for_eq hW]
  have hiff : c.may_have_vec m g = true ↔ ∃ i, c.may_have m (g i) = true := by
    unfold Cfg.may_have_vec m256_is_not_zero
    simp only [decide_eq_true_eq, Cfg.may_have]
    apply exists_congr
    intro i
    rw [hlane i, Nat.mod_eq_of_lt (lt_of_le_of_lt Nat.and_le_left hm32)]
  exact ⟨hiff, fun i0 h0 => hiff.mpr ⟨i0, h0⟩⟩

theorem C5_vector_scalar_witness :
    Cfg.may_have_vec cfg0 (Cfg.mask_for cfg0 5) (fun _ => 5) = true :=
  (C5_vector_scalar cfg0 (by decide) (by decide) (Cfg.mask_for cfg0 5) (by decide)
      (fun _ => 5) (by intro i; norm_num)).2 0 (by decide)

/-- Claim C5 as stated — for *every* populated filter — is false: with a
64-bit mask (a valid configuration) the AVX2 path broadcasts the mask
through 32-bit lanes, so the populated bucket 32 is truncated away and the
vectorized query misses a scalar hit. -/
theorem C5_counterexample :
    (Cfg.mk 8 0).Valid ∧
    Cfg.add (Cfg.mk 8 0) 32 0 = 2 ^ 32 ∧
    Cfg.may_have (Cfg.mk 8 0) (2 ^ 32) 32 = true ∧
    Cfg.may_have_vec (Cfg.mk 8 0) (2 ^ 32) (fun _ => 32) = false :=
  ⟨by decide, by decide, by decide, by decide⟩

/-- Claim C9 amended (Inverted-range behavior): `add_range` is total and
returns `true` for every pair.  When `(b >> shift) < (a >> shift)` the
32-bit unsigned subtraction wraps to `2^32 - ((a >> shift) - (b >> shift))`,
which reaches the saturation threshold `mask_bits - 1` — and the mask is
set to all-ones — exactly when `(a >> shift) - (b >> shift)` is at most
`2^32 - (mask_bits - 1)`; it is *not* always at least `mask_bits - 1` (see
the counterexample).  When the two shifted endpoints coincide, only the
single shared bucket bit is OR-ed in. -/
theorem C9_inverted_range :
    (∀ (c : Cfg) (a b m : Nat), (c.add_range a b m).2 = true) ∧
    (∀ (c : Cfg), c.Valid → ∀ a b m : Nat, a < 2 ^ 32 → b < 2 ^ 32 →
      b >>> c.shift < a >>> c.shift →
      (Cfg.wsub codepointBits (b >>> c.shift) (a >>> c.shift)
          = 2 ^ 32 - (a >>> c.shift - b >>> c.shift) ∧
       (a >>> c.shift - b >>> c.shift ≤ 2 ^ 32 - (c.mask_bits - 1) →
          (c.add_range a b m).1 = 2 ^ c.mask_bits - 1))) ∧
    (∀ (c : Cfg), c.Valid → ∀ a b m : Nat, a >>> c.shift = b >>> c.shift →
      (c.add_range a b m).1 = m ||| c.mask_for a) := by
  refine ⟨fun c a b m => Cfg.add_range_snd c a b m, ?_, ?_⟩
  · intro c hv a b m ha hb hlt
    have hsa : a >>> c.shift < 2 ^ 32 := lt_of_le_of_lt (shiftR_le_self a _) ha
    have hWle : c.mask_bits ≤ 128 := by
      have h1 := hv.1
      unfold Cfg.mask_bits
      omega
    have hw : Cfg.wsub codepointBits (b >>> c.shift) (a >>> c.shift)
        = 2 ^ 32 + (b >>> c.shift) - (a >>> c.shift) := Cfg.wsub_of_lt hlt hsa
    have hw2 : Cfg.wsub codepointBits (b >>> c.shift) (a >>> c.shift)
        = 2 ^ 32 - (a >>> c.shift - b >>> c.shift) := by
      rw [hw]
      omega
    refine ⟨hw2, fun hle => Cfg.add_range_sat ?_ m⟩
    rw [hw2]
    have h32 : (128 : Nat) < 2 ^ 32 := by norm_num
    omega
  · intro c hv a b m heq
    have hWge := Cfg.mask_bits_ge hv
    have hmf : c.mask_for b = c.mask_for a := by
      unfold Cfg.mask_for Cfg.bucket
      rw [← heq]
    have hself : Cfg.wsub codepointBits (b >>> c.shift) (a >>> c.shift) = 0 := by
      rw [← heq]
      unfold Cfg.wsub
      have h1 : 2 ^ codepointBits + (a >>> c.shift) % 2 ^ codepointBits
          - (a >>> c.shift) % 2 ^ codepointBits = 2 ^ codepointBits := by omega
      rw [h1, Nat.mod_self]
    rw [Cfg.add_range_not_sat (by rw [hself]; omega), hmf]
    have hmalt := Cfg.mask_for_lt c a
    have hws : Cfg.wsub c.mask_bits (c.mask_for a) (c.mask_for a) = 0 := by
      unfold Cfg.wsub
      have h1 : 2 ^ c.mask_bits + (c.mask_for a) % 2 ^ c.mask_bits
          - (c.mask_for a) % 2 ^ c.mask_bits = 2 ^ c.mask_bits := by omega
      rw [h1, Nat.mod_self]
    rw [hws, Nat.add_zero, Nat.mod_eq_of_lt hmalt, if_neg (lt_irrefl _),
        Cfg.wsub_zero hmalt]

theorem C9_inverted_range_witness :
    (cfg0.add_range 2147483648 0 0).1 = 2 ^ cfg0.mask_bits - 1 ∧
    (cfg0.add_range 100 110 7).2 = true ∧
    (cfg4.add_range 47 40 3).1 = 3 ||| cfg4.mask_for 47 :=
  ⟨(C9_inverted_range.2.1 cfg0 (by decide) 2147483648 0 0 (by norm_num)
      (by norm_num) (by decide)).2 (by decide),
   C9_inverted_range.1 cfg0 100 110 7,
   C9_inverted_range.2.2 cfg4 (by decide) 47 40 3 (by decide)⟩

/-- Claim C9 as stated is false on the code: with shift 0 and a 32-bit
mask, `add_range (4294967295, 0)` has `(b >> shift) < (a >> shift)`, yet
the wrapped difference is 1 — below `mask_bits - 1` — and the mask is not
saturated. -/
theorem C9_counterexample :
    (0 : Nat) >>> cfg0.shift < (4294967295 : Nat) >>> cfg0.shift ∧
    ¬ (cfg0.mask_bits - 1 ≤
        Cfg.wsub codepointBits ((0 : Nat) >>> cfg0.shift)
          ((4294967295 : Nat) >>> cfg0.shift)) ∧
    (cfg0.add_range 4294967295 0 0).1 ≠ 2 ^ 32 - 1 :=
  ⟨by decide, by decide, by decide⟩

/-- Claim C10 (Purity of queries): a `may_have` call — scalar or
vectorized, on a leaf or a combiner — returns its answer and leaves every
mask unchanged, and repeated calls return the same answer. -/
theorem C10_purity :
    (∀ (d : Digest) (g : Nat),
        (d.may_have_call g).2 = d ∧ (d.may_have_call g).1 = d.may_have g) ∧
    (∀ (d : Digest) (v : Lanes),
        (d.may_have_vec_call v).2 = d ∧ (d.may_have_vec_call v).1 = d.may_have_vec v) ∧
    (∀ (d : Digest) (g : Nat),
        ((d.may_have_call g).2.may_have_call g).1 = (d.may_have_call g).1) := by
  have h1 : ∀ (d : Digest) (g : Nat),
      (d.may_have_call g).2 = d ∧ (d.may_have_call g).1 = d.may_have g := by
    intro d
    induction d with
    | bits c m => exact fun g => ⟨rfl, rfl⟩
    | combiner dh dt ihh iht =>
        intro g
        constructor
        · show Digest.combiner _ _ = _
          rw [(ihh g).1, (iht g).1]
        · show ((dh.may_have_call g).1 && (dt.may_have_call g).1) = _
          rw [(ihh g).2, (iht g).2]
          rfl
  have h2 : ∀ (d : Digest) (v : Lanes),
      (d.may_have_vec_call v).2 = d ∧ (d.may_have_vec_call v).1 = d.may_have_vec v := by
    intro d
    induction d with
    | bits c m => exact fun v => ⟨rfl, rfl⟩
    | combiner dh dt ihh iht =>
        intro v
        constructor
        · show Digest.combiner _ _ = _
          rw [(ihh v).1, (iht v).1]
        · show ((dh.may_have_vec_call v).1 && (dt.may_have_vec_call v).1) = _
          rw [(ihh v).2, (iht v).2]
          rfl
  exact ⟨h1, h2, fun d g => by rw [(h1 d g).1]⟩

end HB
